import Mathlib

/-!
Shallow embedding of `src/src-tauri/src/git_ops.rs` and
`src/src-tauri/src/file_ops.rs` (repository `tracyfy`).

Object ids (git OIDs) are abstracted to `Nat`.  Trees are association
lists from a slash-separated path to the entry's content id (the
granularity at which `tree.get_path` / `entry.id()` are used by the
source).  Blob ids are content-derived (`blobOid` is an injective
encoding of the content), mirroring git's content addressing, which is
observable through `entry.id()` comparisons in `git_log`.  Tree and
commit objects receive fresh ids from a counter.  The string rendering
`Oid::to_string` / `Oid::from_str` is modelled by an injective encoding
`oidToString` with partial inverse `oidFromStr` (real git renders
40-char hex; the program only relies on the rendering being injective
and parseable back).

Stateful libgit2 calls are modelled by explicit state passing on
`GitState`; fallible calls return `Except String` carrying the error
messages built by the Rust code.  The libgit2 revwalk (an external
collaborator in the spec, §6) is modelled by `reachList`, a fuelled
depth-first enumeration of the commits reachable from head, head first.
-/

/-- Association-list lookup: first binding of the key wins, mirroring a
map keyed by object id / path. -/
def alookup {α β : Type} [DecidableEq α] : List (α × β) → α → Option β
  | [], _ => none
  | (a, b) :: t, k => if a = k then some b else alookup t k

/-- Association-list update: replace the first binding of the key, or
append a fresh binding. -/
def aupdate {α β : Type} [DecidableEq α] : List (α × β) → α → β → List (α × β)
  | [], k, v => [(k, v)]
  | (a, b) :: t, k, v => if a = k then (k, v) :: t else (a, b) :: aupdate t k v

/-- Tree object: finite map from a repository-relative path to the
content id of the entry at that path. -/
abbrev GTree := List (String × Nat)

/-- Commit object as stored: parent ids, root tree id, and the metadata
read back by `git_log` (message and author name are optional in git,
hence `Option`). -/
structure Commit where
  parents : List Nat
  tree : Nat
  message : Option String
  author : Option String
  time : Int
deriving Repr, DecidableEq

/-- Output record of `git_log` (struct `CommitInfo` in `git_ops.rs`). -/
structure CommitInfo where
  hash : String
  message : String
  author : String
  timestamp : Int
deriving Repr, DecidableEq

/-- Whole repository state: object store (commits, trees, blobs), the
head ref (`none` models an unborn head / zero-commit repository), the
staged index, the working directory contents, the fresh-id counter for
tree and commit objects, and the clock read by `Signature::now`. -/
structure GitState where
  commits : List (Nat × Commit)
  trees : List (Nat × GTree)
  blobs : List (Nat × String)
  head : Option Nat
  index : List (String × Nat)
  workdir : List (String × String)
  next : Nat
  now : Int
deriving Repr, DecidableEq

/-- Rendering of an oid as a string (`Oid::to_string`).  Modelled as an
injective encoding; the program depends only on injectivity and on
`oidFromStr` being its inverse. -/
def oidToString (n : Nat) : String := String.mk (List.replicate n '1')

/-- Parsing of an oid string (`Oid::from_str`); fails on strings that
are not renderings of an oid. -/
def oidFromStr (s : String) : Except String Nat :=
  if s.data.all (fun c => c = '1') then .ok s.data.length
  else .error "Invalid commit hash"

/-- Content-derived blob id: an injective base encoding of the
content's characters, modelling git's content addressing (equal content
gives equal blob id, which `git_log` observes via `entry.id()`). -/
def blobOid (content : String) : Nat :=
  content.data.foldl (fun a c => a * 1114112 + c.toNat + 1) 1

/-- Staging of one path (`index.add_path` in `git_commit_file`): the
working-directory content is stored as a blob under its content id and
the index entry for the path is pointed at it.  Existence of the file
is checked by the caller. -/
def stage (s : GitState) (path content : String) : GitState :=
  { s with blobs := (blobOid content, content) :: s.blobs,
           index := aupdate s.index path (blobOid content) }

/-- Staging of every working-directory file (`index.add_all(["*"], ..)`
in `git_commit`): adds or updates one index entry per workdir file,
keeping unrelated entries. -/
def addAll (s : GitState) : GitState :=
  s.workdir.foldl (fun st pc => stage st pc.1 pc.2) s

/-- Tree write (`index.write_tree`): snapshots the current index as a
tree object under a fresh id. -/
def writeTree (s : GitState) : Nat × GitState :=
  (s.next, { s with trees := (s.next, s.index) :: s.trees, next := s.next + 1 })

/-- Commit creation (`repo.commit(Some("HEAD"), ..)`): stores a commit
object under a fresh id and atomically moves the head ref onto it; the
fixed signature of the source is `"ReqTrace User"` at the current
clock. -/
def mkCommit (s : GitState) (message : String) (tid : Nat) (parents : List Nat) :
    Nat × GitState :=
  (s.next,
   { s with commits := (s.next, { parents := parents, tree := tid,
                                  message := some message,
                                  author := some "ReqTrace User",
                                  time := s.now }) :: s.commits,
            head := some s.next,
            next := s.next + 1 })

/-- Function `git_commit` (git_ops.rs:29-85): stage everything, write
the index, write and re-find the tree, resolve the head to a parent if
one exists, then create the commit.  Failures after staging return the
already-mutated state (the on-disk index and tree object have been
written by then). -/
def git_commit (s : GitState) (message : String) : Except String String × GitState :=
  let s1 := addAll s
  let tw := writeTree s1
  match alookup tw.2.trees tw.1 with
  | none => (.error "Failed to find tree", tw.2)
  | some _ =>
    match tw.2.head with
    | some hoid =>
      match alookup tw.2.commits hoid with
      | none => (.error "Failed to find parent commit", tw.2)
      | some _ =>
        let cm := mkCommit tw.2 message tw.1 [hoid]
        (.ok (oidToString cm.1), cm.2)
    | none =>
      let cm := mkCommit tw.2 message tw.1 []
      (.ok (oidToString cm.1), cm.2)

/-- Function `git_commit_file` (git_ops.rs:233-294): like `git_commit`
but stages exactly one path with `index.add_path`, which fails when the
working-directory file does not exist. -/
def git_commit_file (s : GitState) (file_path message : String) :
    Except String String × GitState :=
  match alookup s.workdir file_path with
  | none => (.error "Failed to add file to index", s)
  | some content =>
    let s1 := stage s file_path content
    let tw := writeTree s1
    match alookup tw.2.trees tw.1 with
    | none => (.error "Failed to find tree", tw.2)
    | some _ =>
      match tw.2.head with
      | some hoid =>
        match alookup tw.2.commits hoid with
        | none => (.error "Failed to find parent commit", tw.2)
        | some _ =>
          let cm := mkCommit tw.2 message tw.1 [hoid]
          (.ok (oidToString cm.1), cm.2)
      | none =>
        let cm := mkCommit tw.2 message tw.1 []
        (.ok (oidToString cm.1), cm.2)

/-- Working-directory file write (`fs::write` via
`write_artifact_file`, the step performed immediately before a
`git_commit_file` round trip). -/
def writeFile (s : GitState) (path content : String) : GitState :=
  { s with workdir := aupdate s.workdir path content }

/-- Function `git_checkout_file` (git_ops.rs:172-199): parse the hash,
resolve commit, tree, entry and blob, and return the decoded content
(model blobs are Lean strings, so the UTF-8 decode of the source
always succeeds on them). -/
def git_checkout_file (s : GitState) (commit_hash file_path : String) :
    Except String String :=
  match oidFromStr commit_hash with
  | .error e => .error e
  | .ok oid =>
    match alookup s.commits oid with
    | none => .error "Failed to find commit"
    | some c =>
      match alookup s.trees c.tree with
      | none => .error "Failed to get tree"
      | some tr =>
        match alookup tr file_path with
        | none => .error "File not found in commit"
        | some eid =>
          match alookup s.blobs eid with
          | none => .error "Failed to find blob"
          | some content => .ok content

/-- Fuelled depth-first walk over the commit graph: models the libgit2
revwalk seeded at head (`revwalk.push_head`), which yields each
reachable commit exactly once, head first.  A reachable commit whose
object is missing from the store is still yielded with no parents (the
walk cannot read its parent links); `git_log` then fails on it, like
the revwalk iterator erroring on the missing object. -/
def reachAux (s : GitState) : Nat → List Nat → List Nat → List Nat
  | 0, _, visited => visited
  | _ + 1, [], visited => visited
  | fuel + 1, oid :: stack, visited =>
    if oid ∈ visited then reachAux s fuel stack visited
    else
      let ps := match alookup s.commits oid with
        | some c => c.parents
        | none => []
      reachAux s fuel (ps ++ stack) (visited ++ [oid])

/-- Fuel bound for the walk: one step for the seed plus one per commit
and one per parent edge of the store. -/
def walkFuel (s : GitState) : Nat :=
  s.commits.foldl (fun a pc => a + pc.2.parents.length + 1) 0 + 1

/-- Sequence of commits the revwalk yields, head first; empty when the
head is unborn. -/
def reachList (s : GitState) : List Nat :=
  match s.head with
  | none => []
  | some h => reachAux s (walkFuel s) [h] []

/-- Materialization of one output record (git_ops.rs:159-164): hash is
the rendered oid, a missing message becomes the empty string, a
missing author name becomes the fixed label `"Unknown"`, and the
timestamp is the commit's seconds value unchanged. -/
def mkInfo (oid : Nat) (c : Commit) : CommitInfo :=
  { hash := oidToString oid,
    message := c.message.getD "",
    author := c.author.getD "Unknown",
    timestamp := c.time }

/-- Parent-comparison loop of `git_log` (git_ops.rs:125-151): for each
parent in order, a failed parent-commit or parent-tree lookup skips
that parent; otherwise presence of the path is compared, and when the
path is present on both sides the entry ids are compared; the loop
stops at the first detected difference. -/
def parentLoop (s : GitState) (ctree : GTree) (path : String) (fic : Bool) :
    List Nat → Bool
  | [] => false
  | poid :: rest =>
    match alookup s.commits poid with
    | none => parentLoop s ctree path fic rest
    | some parent =>
      match alookup s.trees parent.tree with
      | none => parentLoop s ctree path fic rest
      | some ptree =>
        let fip := (alookup ptree path).isSome
        if fic ≠ fip then true
        else if fic && fip then
          match alookup ctree path, alookup ptree path with
          | some curr, some par =>
            if curr ≠ par then true else parentLoop s ctree path fic rest
          | _, _ => parentLoop s ctree path fic rest
        else parentLoop s ctree path fic rest

/-- Per-commit body of the `git_log` loop (git_ops.rs:101-165): resolve
the visited commit (an unresolvable one fails the call, matching the
`?` operators behind the revwalk item and `find_commit`); without a
filter the commit is always materialized; with one, its tree is
resolved (`?` again) and the commit is kept only when the root test or
the parent loop reports the path as changed. -/
def logStep (s : GitState) (fp : Option String) (oid : Nat) :
    Except String (Option CommitInfo) :=
  match alookup s.commits oid with
  | none => .error "Failed to find commit"
  | some c =>
    match fp with
    | none => .ok (some (mkInfo oid c))
    | some path =>
      match alookup s.trees c.tree with
      | none => .error "Failed to get commit tree"
      | some ctree =>
        let fic := (alookup ctree path).isSome
        let changed := if c.parents.isEmpty then fic
                       else parentLoop s ctree path fic c.parents
        if changed then .ok (some (mkInfo oid c)) else .ok none

/-- Fold of `logStep` over the walked commits, preserving walk order
and propagating the first error. -/
def runWalk (s : GitState) (fp : Option String) : List Nat → Except String (List CommitInfo)
  | [] => .ok []
  | oid :: rest => do
    let r ← logStep s fp oid
    let out ← runWalk s fp rest
    match r with
    | none => pure out
    | some info => pure (info :: out)

/-- Function `git_log` (git_ops.rs:89-168): `revwalk.push_head` fails
on an unborn head (libgit2 cannot resolve HEAD to an oid in a
zero-commit repository); otherwise every commit the walk yields is
processed in order by `logStep`. -/
def git_log (s : GitState) (file_path : Option String) :
    Except String (List CommitInfo) :=
  match s.head with
  | none => .error "Failed to push HEAD: reference not found"
  | some _ => runWalk s file_path (reachList s)

/-- Splitting of a character list at every dot, keeping empty pieces:
the dot structure `Path::extension` inspects in a file name. -/
def splitDots : List Char → List (List Char)
  | [] => [[]]
  | c :: t =>
    if c = '.' then [] :: splitDots t
    else
      match splitDots t with
      | [] => [[c]]
      | p :: ps => (c :: p) :: ps

/-- Rust `Path::extension` restricted to a plain file name: the portion
after the final dot; none when the name has no dot, or starts with its
only dot. -/
def rustExtension (name : String) : Option String :=
  match splitDots name.data with
  | [] => none
  | [_] => none
  | [[], _] => none
  | parts => parts.getLast?.map (fun l => String.mk l)

/-- Function `list_artifacts` (file_ops.rs:58-82) over a model
filesystem mapping a directory path to its entry names: a missing
directory yields `Ok` of the empty list; otherwise exactly the entries
whose extension is `md` are returned (each pushed name being the
entry's file name). -/
def list_artifacts (fs : List (String × List String))
    (project_path artifact_type : String) : Except String (List String) :=
  let dir_path := project_path ++ "/" ++ artifact_type
  match alookup fs dir_path with
  | none => .ok []
  | some entries =>
    .ok (entries.filter (fun name => decide (rustExtension name = some "md")))

/-- Presence of a path in a tree, following the spec's words (§4.1:
present(T, P) holds iff P resolves to an entry in T). -/
def specPresent (t : GTree) (path : String) : Prop := (alookup t path).isSome = true

/-- Inclusion predicate of claim C1, written from the spec's words
(§4.1 step 4): a root commit is included iff the path is present in its
tree; a commit with parents is included iff for at least one parent the
presence of the path differs between the commit's tree and that
parent's tree, or both trees hold the path and the entry ids differ. -/
def specIncludes (s : GitState) (path : String) (c : Commit) (ctree : GTree) : Prop :=
  if c.parents = [] then specPresent ctree path
  else ∃ poid ∈ c.parents, ∃ pc ptree,
    alookup s.commits poid = some pc ∧ alookup s.trees pc.tree = some ptree ∧
    (¬(specPresent ctree path ↔ specPresent ptree path) ∨
     (specPresent ctree path ∧ specPresent ptree path ∧
      alookup ctree path ≠ alookup ptree path))

/-- Unfiltered materialization of one walked commit, used to state the
no-filter contract of `git_log`. -/
def recordOf (s : GitState) (oid : Nat) : Option CommitInfo :=
  (alookup s.commits oid).map (mkInfo oid)

/-- Store well-formedness: every allocated commit and tree id is below
the fresh-id counter.  Every state built by the operations here
preserves it. -/
def WF (s : GitState) : Prop :=
  (∀ k ∈ s.commits.map Prod.fst, k < s.next) ∧
  (∀ k ∈ s.trees.map Prod.fst, k < s.next)

/-- Example repository: brand-new (zero commits, unborn head) with one
working-directory file, as in the spec's concrete scenario (§8). -/
def exS0 : GitState :=
  { commits := [], trees := [], blobs := [], head := none, index := [],
    workdir := [("requirements/r1.md", "A")], next := 0, now := 100 }

/-- Example repository after committing `requirements/r1.md`. -/
def exS1 : GitState := (git_commit_file exS0 "requirements/r1.md" "add r1").2

/-- Example repository after overwriting the file with new content. -/
def exS2 : GitState := writeFile exS1 "requirements/r1.md" "B"

/-- Example repository after committing the changed content. -/
def exS3 : GitState := (git_commit_file exS2 "requirements/r1.md" "update r1").2

/-- Example repository after re-committing identical content on top of
`exS1` (the staged blob equals the head tree's entry). -/
def exS4 : GitState := (git_commit_file exS1 "requirements/r1.md" "again").2

/-- Example repository whose head commit references a parent object
that is missing from the store. -/
def exBad : GitState :=
  { commits := [(1, { parents := [0], tree := 10, message := some "m",
                      author := some "a", time := 0 })],
    trees := [(10, [("f.md", 7)])], blobs := [], head := some 1,
    index := [], workdir := [], next := 11, now := 0 }

/-- Example repository whose head ref points at a commit object missing
from the store (commit creation fails after staging). -/
def exDangling : GitState :=
  { commits := [], trees := [], blobs := [], head := some 5, index := [],
    workdir := [("a.md", "x")], next := 6, now := 0 }

/-- Example filesystem for the artifact-listing claims. -/
def exFS : List (String × List String) :=
  [("proj/requirements", ["a.md", "b.txt", ".md", "c.md", "noext"])]

/-! Basic lemmas about the association list and oid rendering. -/

theorem alookup_cons_self {α β : Type} [DecidableEq α] (k : α) (v : β) (t : List (α × β)) :
    alookup ((k, v) :: t) k = some v := by
  simp [alookup]

theorem alookup_aupdate_self {α β : Type} [DecidableEq α] (l : List (α × β)) (k : α) (v : β) :
    alookup (aupdate l k v) k = some v := by
  induction l with
  | nil => simp [aupdate, alookup]
  | cons hd t ih =>
    obtain ⟨a, b⟩ := hd
    by_cases h : a = k
    · simp [aupdate, h, alookup]
    · simp [aupdate, h, alookup, ih]

theorem oid_roundtrip (n : Nat) : oidFromStr (oidToString n) = .ok n := by
  have hall : (List.replicate n '1').all (fun c => c = '1') = true := by
    induction n with
    | zero => rfl
    | succ m ih => simp [List.replicate, ih]
  simp [oidFromStr, oidToString, hall]

theorem oidToString_inj {m n : Nat} (h : oidToString m = oidToString n) : m = n := by
  have h1 := oid_roundtrip m
  have h2 := oid_roundtrip n
  rw [h] at h1
  rw [h1] at h2
  exact (Except.ok.injEq _ _).mp h2

/-! Lemmas about the walk enumeration. -/

theorem reachAux_extends (s : GitState) :
    ∀ (fuel : Nat) (stack visited : List Nat),
      ∃ t, reachAux s fuel stack visited = visited ++ t := by
  intro fuel
  induction fuel with
  | zero => intro stack visited; exact ⟨[], by simp [reachAux]⟩
  | succ n ih =>
    intro stack visited
    match stack with
    | [] => exact ⟨[], by simp [reachAux]⟩
    | oid :: rest =>
      by_cases h : oid ∈ visited
      · obtain ⟨t, ht⟩ := ih rest visited
        exact ⟨t, by simp [reachAux, h, ht]⟩
      · obtain ⟨t, ht⟩ := ih
          ((match alookup s.commits oid with | some c => c.parents | none => []) ++ rest)
          (visited ++ [oid])
        refine ⟨oid :: t, ?_⟩
        rw [show reachAux s (n + 1) (oid :: rest) visited =
             reachAux s n ((match alookup s.commits oid with
                            | some c => c.parents
                            | none => []) ++ rest) (visited ++ [oid]) by simp [reachAux, h]]
        rw [ht]
        simp

theorem reachAux_nodup (s : GitState) :
    ∀ (fuel : Nat) (stack visited : List Nat), visited.Nodup →
      (reachAux s fuel stack visited).Nodup := by
  intro fuel
  induction fuel with
  | zero => intro stack visited hv; simpa [reachAux] using hv
  | succ n ih =>
    intro stack visited hv
    match stack with
    | [] => simpa [reachAux] using hv
    | oid :: rest =>
      by_cases h : oid ∈ visited
      · rw [show reachAux s (n + 1) (oid :: rest) visited = reachAux s n rest visited by
              simp [reachAux, h]]
        exact ih rest visited hv
      · rw [show reachAux s (n + 1) (oid :: rest) visited =
             reachAux s n ((match alookup s.commits oid with
                            | some c => c.parents
                            | none => []) ++ rest) (visited ++ [oid]) by simp [reachAux, h]]
        exact ih _ _ (by simp [List.nodup_append, hv, h])

theorem reachList_nodup (s : GitState) : (reachList s).Nodup := by
  unfold reachList
  match hh : s.head with
  | none => simp
  | some h0 => exact reachAux_nodup s (walkFuel s) [h0] [] (by simp)

theorem reachList_head (s : GitState) (h0 : Nat) (hh : s.head = some h0) :
    ∃ t, reachList s = h0 :: t := by
  unfold reachList
  rw [hh]
  show ∃ t, reachAux s (walkFuel s) [h0] [] = h0 :: t
  have hf : walkFuel s = (walkFuel s - 1) + 1 := by unfold walkFuel; omega
  rw [hf]
  obtain ⟨t, ht⟩ := reachAux_extends s (walkFuel s - 1)
    ((match alookup s.commits h0 with | some c => c.parents | none => []) ++ []) ([] ++ [h0])
  refine ⟨t, ?_⟩
  rw [show reachAux s ((walkFuel s - 1) + 1) [h0] [] =
       reachAux s (walkFuel s - 1) ((match alookup s.commits h0 with
                                     | some c => c.parents
                                     | none => []) ++ []) ([] ++ [h0]) by simp [reachAux]]
  rw [ht]
  simp

/-! Lemmas about the log fold. -/

theorem runWalk_cons (s : GitState) (fp : Option String) (oid : Nat) (rest : List Nat) :
    runWalk s fp (oid :: rest) =
      match logStep s fp oid with
      | .error e => .error e
      | .ok r =>
        match runWalk s fp rest with
        | .error e => .error e
        | .ok out =>
          match r with
          | none => .ok out
          | some info => .ok (info :: out) := by
  cases h1 : logStep s fp oid with
  | error e => simp only [runWalk, h1]; rfl
  | ok r =>
    cases h2 : runWalk s fp rest with
    | error e => simp only [runWalk, h1, h2]; cases r <;> rfl
    | ok out => simp only [runWalk, h1, h2]; cases r <;> rfl

theorem logStep_err (s : GitState) (fp : Option String) (oid : Nat)
    (hc : alookup s.commits oid = none) :
    logStep s fp oid = .error "Failed to find commit" := by
  unfold logStep
  rw [hc]

theorem logStep_nofilter (s : GitState) (oid : Nat) (c : Commit)
    (hc : alookup s.commits oid = some c) :
    logStep s none oid = .ok (some (mkInfo oid c)) := by
  unfold logStep
  rw [hc]

theorem logStep_filter (s : GitState) (path : String) (oid : Nat) (c : Commit) (ctree : GTree)
    (hc : alookup s.commits oid = some c) (ht : alookup s.trees c.tree = some ctree) :
    logStep s (some path) oid =
      .ok (if (if c.parents.isEmpty then (alookup ctree path).isSome
               else parentLoop s ctree path (alookup ctree path).isSome c.parents)
           then some (mkInfo oid c) else none) := by
  simp only [logStep, hc, ht]
  split <;> split <;> simp_all

theorem logStep_ok_cases (s : GitState) (fp : Option String) (oid : Nat) (r : Option CommitInfo)
    (h1 : logStep s fp oid = .ok r) :
    r = none ∨ ∃ c, alookup s.commits oid = some c ∧ r = some (mkInfo oid c) := by
  cases hc : alookup s.commits oid with
  | none => rw [logStep_err s fp oid hc] at h1; exact absurd h1 (by simp)
  | some c =>
    cases fp with
    | none =>
      rw [logStep_nofilter s oid c hc] at h1
      right
      exact ⟨c, rfl, by simpa using h1.symm⟩
    | some path =>
      cases ht : alookup s.trees c.tree with
      | none =>
        simp only [logStep, hc, ht] at h1
        exact absurd h1 (by simp)
      | some ctree =>
        rw [logStep_filter s path oid c ctree hc ht] at h1
        by_cases hch : (if c.parents.isEmpty then (alookup ctree path).isSome
                        else parentLoop s ctree path (alookup ctree path).isSome
                          c.parents) = true
        · rw [if_pos hch] at h1
          right
          exact ⟨c, rfl, by simpa using h1.symm⟩
        · rw [if_neg hch] at h1
          left
          simpa using h1.symm

theorem runWalk_shape (s : GitState) (fp : Option String) :
    ∀ (walk : List Nat) (out : List CommitInfo), runWalk s fp walk = .ok out →
      ∀ info ∈ out, ∃ oid ∈ walk, ∃ c,
        alookup s.commits oid = some c ∧ info = mkInfo oid c := by
  intro walk
  induction walk with
  | nil =>
    intro out h info hi
    simp only [runWalk] at h
    cases h
    simp at hi
  | cons oid rest ih =>
    intro out h info hi
    rw [runWalk_cons] at h
    cases h1 : logStep s fp oid with
    | error e => rw [h1] at h; exact absurd h (by simp)
    | ok r =>
      rw [h1] at h
      cases h2 : runWalk s fp rest with
      | error e => rw [h2] at h; exact absurd h (by simp)
      | ok out' =>
        rw [h2] at h
        rcases logStep_ok_cases s fp oid r h1 with hnone | ⟨c, hc, hsome⟩
        · subst hnone
          have hoo : out = out' := by simpa using h.symm
          subst hoo
          obtain ⟨oid', ho, c', hc', heq⟩ := ih out h2 info hi
          exact ⟨oid', by simp [ho], c', hc', heq⟩
        · subst hsome
          have hoo : out = mkInfo oid c :: out' := by simpa using h.symm
          subst hoo
          rcases List.mem_cons.mp hi with heq | hmem
          · exact ⟨oid, by simp, c, hc, heq⟩
          · obtain ⟨oid', ho, c', hc', heq⟩ := ih out' h2 info hmem
            exact ⟨oid', by simp [ho], c', hc', heq⟩

theorem runWalk_total (s : GitState) (fp : Option String) :
    ∀ (walk : List Nat),
      (∀ oid ∈ walk, ∃ c, alookup s.commits oid = some c ∧
        (alookup s.trees c.tree).isSome = true) →
      ∃ out, runWalk s fp walk = .ok out := by
  intro walk
  induction walk with
  | nil => intro _; exact ⟨[], rfl⟩
  | cons oid rest ih =>
    intro hres
    obtain ⟨c, hc, ht⟩ := hres oid (by simp)
    obtain ⟨out', h2⟩ := ih (fun o ho => hres o (by simp [ho]))
    obtain ⟨ctree, htc⟩ := Option.isSome_iff_exists.mp ht
    have hstep : ∃ r, logStep s fp oid = .ok r := by
      cases fp with
      | none => exact ⟨_, logStep_nofilter s oid c hc⟩
      | some path => exact ⟨_, logStep_filter s path oid c ctree hc htc⟩
    obtain ⟨r, h1⟩ := hstep
    cases r with
    | none => exact ⟨out', by rw [runWalk_cons, h1, h2]⟩
    | some info => exact ⟨info :: out', by rw [runWalk_cons, h1, h2]⟩

theorem runWalk_nofilter (s : GitState) :
    ∀ (walk : List Nat),
      (∀ oid ∈ walk, (alookup s.commits oid).isSome = true) →
      runWalk s none walk = .ok (walk.filterMap (recordOf s)) := by
  intro walk
  induction walk with
  | nil => intro _; rfl
  | cons oid rest ih =>
    intro hres
    obtain ⟨c, hc⟩ := Option.isSome_iff_exists.mp (hres oid (by simp))
    have hrun := ih (fun o ho => hres o (by simp [ho]))
    rw [runWalk_cons, logStep_nofilter s oid c hc, hrun]
    simp [List.filterMap_cons, recordOf, hc]

theorem filterMap_all_some_get {α β : Type} (f : α → Option β) :
    ∀ (l : List α), (∀ a ∈ l, (f a).isSome = true) →
      ∀ i : Nat, (l.filterMap f)[i]? = (l[i]?).bind f := by
  intro l
  induction l with
  | nil => intro _ i; simp
  | cons a t ih =>
    intro hres i
    obtain ⟨b, hb⟩ := Option.isSome_iff_exists.mp (hres a (by simp))
    have ihh := ih (fun x hx => hres x (by simp [hx]))
    cases i with
    | zero => simp [List.filterMap_cons, hb]
    | succ j => simp [List.filterMap_cons, hb, ihh j]

theorem filterMap_all_some_len {α β : Type} (f : α → Option β) :
    ∀ (l : List α), (∀ a ∈ l, (f a).isSome = true) →
      (l.filterMap f).length = l.length := by
  intro l
  induction l with
  | nil => intro _; rfl
  | cons a t ih =>
    intro hres
    obtain ⟨b, hb⟩ := Option.isSome_iff_exists.mp (hres a (by simp))
    simp [List.filterMap_cons, hb, ih (fun x hx => hres x (by simp [hx]))]

theorem mkInfo_hash (oid : Nat) (c : Commit) : (mkInfo oid c).hash = oidToString oid := rfl

theorem runWalk_mem_iff (s : GitState) (path : String) (oid : Nat) (c : Commit) (ctree : GTree)
    (hc : alookup s.commits oid = some c) (ht : alookup s.trees c.tree = some ctree) :
    ∀ (walk : List Nat) (out : List CommitInfo), walk.Nodup → oid ∈ walk →
      runWalk s (some path) walk = .ok out →
      ((∃ info ∈ out, info.hash = oidToString oid) ↔
        (if c.parents.isEmpty then (alookup ctree path).isSome
         else parentLoop s ctree path (alookup ctree path).isSome c.parents) = true) := by
  intro walk
  induction walk with
  | nil => intro out _ hmem; simp at hmem
  | cons w rest ih =>
    intro out hnd hmem hrun
    rw [runWalk_cons] at hrun
    cases h1 : logStep s (some path) w with
    | error e => rw [h1] at hrun; exact absurd hrun (by simp)
    | ok r =>
      rw [h1] at hrun
      cases h2 : runWalk s (some path) rest with
      | error e => rw [h2] at hrun; exact absurd hrun (by simp)
      | ok out' =>
        rw [h2] at hrun
        rcases List.mem_cons.mp hmem with heq | hmem'
        · subst heq
          rw [logStep_filter s path oid c ctree hc ht] at h1
          by_cases hch : (if c.parents.isEmpty then (alookup ctree path).isSome
                          else parentLoop s ctree path (alookup ctree path).isSome
                            c.parents) = true
          · rw [if_pos hch] at h1
            have hr : r = some (mkInfo oid c) := by simpa using h1.symm
            subst hr
            have hoo : out = mkInfo oid c :: out' := by simpa using hrun.symm
            subst hoo
            simp only [hch, iff_true]
            exact ⟨mkInfo oid c, by simp, rfl⟩
          · rw [if_neg hch] at h1
            have hr : r = none := by simpa using h1.symm
            subst hr
            have hoo : out = out' := by simpa using hrun.symm
            subst hoo
            refine iff_of_false ?_ hch
            rintro ⟨info, hmem2, hhash⟩
            obtain ⟨oid', ho', c', hc', heq⟩ := runWalk_shape s (some path) rest out h2 info hmem2
            have : oid' = oid := oidToString_inj (by rw [← hhash, heq, mkInfo_hash])
            subst this
            exact (List.nodup_cons.mp hnd).1 ho'
        · have hw : w ≠ oid := fun hwe => (List.nodup_cons.mp hnd).1 (hwe ▸ hmem')
          have ihh := ih out' (List.nodup_cons.mp hnd).2 hmem' h2
          rcases logStep_ok_cases s (some path) w r h1 with hnone | ⟨cw, hcw, hsome⟩
          · subst hnone
            have hoo : out = out' := by simpa using hrun.symm
            subst hoo
            exact ihh
          · subst hsome
            have hoo : out = mkInfo w cw :: out' := by simpa using hrun.symm
            subst hoo
            constructor
            · rintro ⟨info, hmem2, hhash⟩
              rcases List.mem_cons.mp hmem2 with h | h
              · exact absurd (oidToString_inj (by rw [← hhash, h, mkInfo_hash])) hw
              · exact ihh.mp ⟨info, h, hhash⟩
            · intro hcond
              obtain ⟨info, hmem2, hhash⟩ := ihh.mpr hcond
              exact ⟨info, by simp [hmem2], hhash⟩

theorem parentLoop_iff_spec (s : GitState) (path : String) (ctree : GTree) :
    ∀ ps : List Nat,
      (parentLoop s ctree path (alookup ctree path).isSome ps = true ↔
        ∃ poid ∈ ps, ∃ pc ptree, alookup s.commits poid = some pc ∧
          alookup s.trees pc.tree = some ptree ∧
          (¬(specPresent ctree path ↔ specPresent ptree path) ∨
           (specPresent ctree path ∧ specPresent ptree path ∧
            alookup ctree path ≠ alookup ptree path))) := by
  intro ps
  induction ps with
  | nil => simp [parentLoop]
  | cons poid rest ih =>
    cases hpc : alookup s.commits poid with
    | none =>
      rw [show parentLoop s ctree path (alookup ctree path).isSome (poid :: rest) =
           parentLoop s ctree path (alookup ctree path).isSome rest by
             simp [parentLoop, hpc]]
      rw [ih]
      constructor
      · rintro ⟨p, hp, prest⟩
        exact ⟨p, by simp [hp], prest⟩
      · rintro ⟨p, hp, pc, ptree, hpc2, hrest⟩
        rcases List.mem_cons.mp hp with he | hm
        · subst he
          rw [hpc] at hpc2
          cases hpc2
        · exact ⟨p, hm, pc, ptree, hpc2, hrest⟩
    | some parent =>
      cases hpt : alookup s.trees parent.tree with
      | none =>
        rw [show parentLoop s ctree path (alookup ctree path).isSome (poid :: rest) =
             parentLoop s ctree path (alookup ctree path).isSome rest by
               simp [parentLoop, hpc, hpt]]
        rw [ih]
        constructor
        · rintro ⟨p, hp, prest⟩
          exact ⟨p, by simp [hp], prest⟩
        · rintro ⟨p, hp, pc, ptree, hpc2, hpt2, hD⟩
          rcases List.mem_cons.mp hp with he | hm
          · subst he
            rw [hpc] at hpc2
            injection hpc2 with hpc3
            subst hpc3
            rw [hpt] at hpt2
            cases hpt2
          · exact ⟨p, hm, pc, ptree, hpc2, hpt2, hD⟩
      | some ptree =>
        by_cases hfic : (alookup ctree path).isSome = true
        · by_cases hfip : (alookup ptree path).isSome = true
          · -- both present: compare entry ids
            obtain ⟨curr, hcurr⟩ := Option.isSome_iff_exists.mp hfic
            obtain ⟨par, hpar⟩ := Option.isSome_iff_exists.mp hfip
            by_cases hcp : curr = par
            · -- equal entries: this parent contributes nothing
              subst hcp
              rw [show parentLoop s ctree path (alookup ctree path).isSome (poid :: rest) =
                   parentLoop s ctree path (alookup ctree path).isSome rest by
                     simp [parentLoop, hpc, hpt, hfic, hfip, hcurr, hpar]]
              rw [ih]
              constructor
              · rintro ⟨p, hp, prest⟩
                exact ⟨p, by simp [hp], prest⟩
              · rintro ⟨p, hp, pc, ptree', hpc2, hpt2, hD⟩
                rcases List.mem_cons.mp hp with he | hm
                · subst he
                  rw [hpc] at hpc2
                  injection hpc2 with hpc3
                  subst hpc3
                  rw [hpt] at hpt2
                  injection hpt2 with hpt3
                  subst hpt3
                  rcases hD with hD | ⟨_, _, hD⟩
                  · exact absurd (by simp [specPresent, hfic, hfip]) hD
                  · exact absurd (by rw [hcurr, hpar]) hD
                · exact ⟨p, hm, pc, ptree', hpc2, hpt2, hD⟩
            · -- different entries: include via this parent
              rw [show parentLoop s ctree path (alookup ctree path).isSome (poid :: rest) =
                   true by simp [parentLoop, hpc, hpt, hfic, hfip, hcurr, hpar, hcp]]
              simp only [true_iff]
              refine ⟨poid, by simp, parent, ptree, hpc, hpt, Or.inr ?_⟩
              exact ⟨by simp [specPresent, hfic], by simp [specPresent, hfip],
                by rw [hcurr, hpar]; simp [hcp]⟩
          · -- present in commit, absent in parent
            rw [show parentLoop s ctree path (alookup ctree path).isSome (poid :: rest) =
                 true by simp [parentLoop, hpc, hpt, hfic, hfip]]
            simp only [true_iff]
            refine ⟨poid, by simp, parent, ptree, hpc, hpt, Or.inl ?_⟩
            intro hiff
            exact hfip (hiff.mp (by simp [specPresent, hfic]))
        · by_cases hfip : (alookup ptree path).isSome = true
          · -- absent in commit, present in parent
            rw [show parentLoop s ctree path (alookup ctree path).isSome (poid :: rest) =
                 true by simp [parentLoop, hpc, hpt, hfic, hfip]]
            simp only [true_iff]
            refine ⟨poid, by simp, parent, ptree, hpc, hpt, Or.inl ?_⟩
            intro hiff
            exact hfic (hiff.mpr (by simp [specPresent, hfip]))
          · -- absent on both sides: this parent contributes nothing
            rw [show parentLoop s ctree path (alookup ctree path).isSome (poid :: rest) =
                 parentLoop s ctree path (alookup ctree path).isSome rest by
                   simp [parentLoop, hpc, hpt, hfic, hfip]]
            rw [ih]
            constructor
            · rintro ⟨p, hp, prest⟩
              exact ⟨p, by simp [hp], prest⟩
            · rintro ⟨p, hp, pc, ptree', hpc2, hpt2, hD⟩
              rcases List.mem_cons.mp hp with he | hm
              · subst he
                rw [hpc] at hpc2
                injection hpc2 with hpc3
                subst hpc3
                rw [hpt] at hpt2
                injection hpt2 with hpt3
                subst hpt3
                rcases hD with hD | ⟨hp1, _, _⟩
                · exact absurd (by simp [specPresent, hfic, hfip]) hD
                · exact absurd hp1 (by simp [specPresent, hfic])
              · exact ⟨p, hm, pc, ptree', hpc2, hpt2, hD⟩

/-! Structural lemmas about the write path. -/

theorem stage_fold_pres (l : List (String × String)) :
    ∀ s : GitState,
      (l.foldl (fun st pc => stage st pc.1 pc.2) s).commits = s.commits ∧
      (l.foldl (fun st pc => stage st pc.1 pc.2) s).trees = s.trees ∧
      (l.foldl (fun st pc => stage st pc.1 pc.2) s).head = s.head ∧
      (l.foldl (fun st pc => stage st pc.1 pc.2) s).next = s.next ∧
      (l.foldl (fun st pc => stage st pc.1 pc.2) s).now = s.now ∧
      (l.foldl (fun st pc => stage st pc.1 pc.2) s).workdir = s.workdir := by
  induction l with
  | nil => intro s; exact ⟨rfl, rfl, rfl, rfl, rfl, rfl⟩
  | cons hd t ih =>
    intro s
    have h := ih (stage s hd.1 hd.2)
    simpa [stage] using h

theorem addAll_pres (s : GitState) :
    (addAll s).commits = s.commits ∧ (addAll s).trees = s.trees ∧
    (addAll s).head = s.head ∧ (addAll s).next = s.next ∧
    (addAll s).now = s.now ∧ (addAll s).workdir = s.workdir :=
  stage_fold_pres s.workdir s

theorem alookup_some_mem {α β : Type} [DecidableEq α] :
    ∀ (l : List (α × β)) (k : α) (v : β), alookup l k = some v → k ∈ l.map Prod.fst := by
  intro l
  induction l with
  | nil => intro k v h; cases h
  | cons hd t ih =>
    intro k v h
    obtain ⟨a, b⟩ := hd
    by_cases he : a = k
    · simp [he]
    · rw [show alookup ((a, b) :: t) k = alookup t k by simp [alookup, he]] at h
      simp [ih k v h]

theorem git_commit_file_ok (s : GitState) (p m h : String) (s' : GitState)
    (hcf : git_commit_file s p m = (.ok h, s')) :
    ∃ content, alookup s.workdir p = some content ∧
      h = oidToString (s.next + 1) ∧
      s' = { s with
             blobs := (blobOid content, content) :: s.blobs,
             index := aupdate s.index p (blobOid content),
             trees := (s.next, aupdate s.index p (blobOid content)) :: s.trees,
             commits := (s.next + 1,
               { parents := (match s.head with | some x => [x] | none => []),
                 tree := s.next, message := some m,
                 author := some "ReqTrace User", time := s.now }) :: s.commits,
             head := some (s.next + 1),
             next := s.next + 2 } := by
  cases hwd : alookup s.workdir p with
  | none =>
    rw [show git_commit_file s p m = (.error "Failed to add file to index", s) by
          simp [git_commit_file, hwd]] at hcf
    exact absurd (congrArg Prod.fst hcf) (by simp)
  | some content =>
    refine ⟨content, rfl, ?_⟩
    cases hh : s.head with
    | none =>
      rw [show git_commit_file s p m =
           (.ok (oidToString (s.next + 1)),
            { s with
              blobs := (blobOid content, content) :: s.blobs,
              index := aupdate s.index p (blobOid content),
              trees := (s.next, aupdate s.index p (blobOid content)) :: s.trees,
              commits := (s.next + 1,
                { parents := [], tree := s.next, message := some m,
                  author := some "ReqTrace User", time := s.now }) :: s.commits,
              head := some (s.next + 1),
              next := s.next + 2 }) by
            simp [git_commit_file, hwd, stage, writeTree, mkCommit, alookup, hh]] at hcf
      have h1 := congrArg Prod.fst hcf
      have h2 := congrArg Prod.snd hcf
      simp at h1 h2
      exact ⟨h1.symm, by rw [← h2]⟩
    | some ho =>
      cases hpc : alookup s.commits ho with
      | none =>
        rw [show git_commit_file s p m =
             (.error "Failed to find parent commit",
              { s with
                blobs := (blobOid content, content) :: s.blobs,
                index := aupdate s.index p (blobOid content),
                trees := (s.next, aupdate s.index p (blobOid content)) :: s.trees,
                next := s.next + 1 }) by
              simp [git_commit_file, hwd, stage, writeTree, alookup, hh, hpc]] at hcf
        exact absurd (congrArg Prod.fst hcf) (by simp)
      | some pc =>
        rw [show git_commit_file s p m =
             (.ok (oidToString (s.next + 1)),
              { s with
                blobs := (blobOid content, content) :: s.blobs,
                index := aupdate s.index p (blobOid content),
                trees := (s.next, aupdate s.index p (blobOid content)) :: s.trees,
                commits := (s.next + 1,
                  { parents := [ho], tree := s.next, message := some m,
                    author := some "ReqTrace User", time := s.now }) :: s.commits,
                head := some (s.next + 1),
                next := s.next + 2 }) by
              simp [git_commit_file, hwd, stage, writeTree, mkCommit, alookup, hh, hpc]] at hcf
        have h1 := congrArg Prod.fst hcf
        have h2 := congrArg Prod.snd hcf
        simp at h1 h2
        exact ⟨h1.symm, by rw [← h2]⟩

theorem git_commit_ok (s : GitState) (m h : String) (s' : GitState)
    (hc : git_commit s m = (.ok h, s')) :
    h = oidToString (s.next + 1) ∧ s'.head = some (s.next + 1) ∧
    s'.commits = (s.next + 1,
      { parents := (match s.head with | some x => [x] | none => []),
        tree := s.next, message := some m,
        author := some "ReqTrace User", time := s.now }) :: s.commits := by
  obtain ⟨hcm, htr, hhd, hnx, hnw, hwd⟩ := addAll_pres s
  cases hh : s.head with
  | none =>
    rw [show git_commit s m =
         (.ok (oidToString (s.next + 1)),
          { addAll s with
            trees := (s.next, (addAll s).index) :: (addAll s).trees,
            commits := (s.next + 1,
              { parents := [], tree := s.next, message := some m,
                author := some "ReqTrace User", time := s.now }) :: s.commits,
            head := some (s.next + 1),
            next := s.next + 2 }) by
          simp [git_commit, writeTree, mkCommit, alookup, hh, hcm, hhd, hnx, hnw]] at hc
    have h1 := congrArg Prod.fst hc
    have h2 := congrArg Prod.snd hc
    simp at h1 h2
    exact ⟨h1.symm, by rw [← h2], by rw [← h2]⟩
  | some ho =>
    cases hpc : alookup s.commits ho with
    | none =>
      rw [show git_commit s m =
           (.error "Failed to find parent commit",
            { addAll s with
              trees := (s.next, (addAll s).index) :: (addAll s).trees,
              next := s.next + 1 }) by
            simp [git_commit, writeTree, alookup, hh, hcm, hhd, hnx, hpc]] at hc
      exact absurd (congrArg Prod.fst hc) (by simp)
    | some pc =>
      rw [show git_commit s m =
           (.ok (oidToString (s.next + 1)),
            { addAll s with
              trees := (s.next, (addAll s).index) :: (addAll s).trees,
              commits := (s.next + 1,
                { parents := [ho], tree := s.next, message := some m,
                  author := some "ReqTrace User", time := s.now }) :: s.commits,
              head := some (s.next + 1),
              next := s.next + 2 }) by
            simp [git_commit, writeTree, mkCommit, alookup, hh, hcm, hhd, hnx, hnw, hpc]] at hc
      have h1 := congrArg Prod.fst hc
      have h2 := congrArg Prod.snd hc
      simp at h1 h2
      exact ⟨h1.symm, by rw [← h2], by rw [← h2]⟩

theorem git_commit_err_pres (s : GitState) (m e : String)
    (he : (git_commit s m).1 = .error e) :
    (git_commit s m).2.head = s.head ∧ (git_commit s m).2.commits = s.commits := by
  obtain ⟨hcm, htr, hhd, hnx, hnw, hwd⟩ := addAll_pres s
  cases hh : s.head with
  | none =>
    rw [show git_commit s m =
         (.ok (oidToString (s.next + 1)),
          { addAll s with
            trees := (s.next, (addAll s).index) :: (addAll s).trees,
            commits := (s.next + 1,
              { parents := [], tree := s.next, message := some m,
                author := some "ReqTrace User", time := s.now }) :: s.commits,
            head := some (s.next + 1),
            next := s.next + 2 }) by
          simp [git_commit, writeTree, mkCommit, alookup, hh, hcm, hhd, hnx, hnw]] at he
    exact absurd he (by simp)
  | some ho =>
    cases hpc : alookup s.commits ho with
    | none =>
      rw [show git_commit s m =
           (.error "Failed to find parent commit",
            { addAll s with
              trees := (s.next, (addAll s).index) :: (addAll s).trees,
              next := s.next + 1 }) by
            simp [git_commit, writeTree, alookup, hh, hcm, hhd, hnx, hpc]]
      exact ⟨by simp [hhd, hh], by simp [hcm]⟩
    | some pc =>
      rw [show git_commit s m =
           (.ok (oidToString (s.next + 1)),
            { addAll s with
              trees := (s.next, (addAll s).index) :: (addAll s).trees,
              commits := (s.next + 1,
                { parents := [ho], tree := s.next, message := some m,
                  author := some "ReqTrace User", time := s.now }) :: s.commits,
              head := some (s.next + 1),
              next := s.next + 2 }) by
            simp [git_commit, writeTree, mkCommit, alookup, hh, hcm, hhd, hnx, hnw, hpc]] at he
      exact absurd he (by simp)

theorem git_commit_file_err_pres (s : GitState) (p m e : String)
    (he : (git_commit_file s p m).1 = .error e) :
    (git_commit_file s p m).2.head = s.head ∧
    (git_commit_file s p m).2.commits = s.commits := by
  cases hwd : alookup s.workdir p with
  | none =>
    rw [show git_commit_file s p m = (.error "Failed to add file to index", s) by
          simp [git_commit_file, hwd]]
    exact ⟨rfl, rfl⟩
  | some content =>
    cases hh : s.head with
    | none =>
      rw [show git_commit_file s p m =
           (.ok (oidToString (s.next + 1)),
            { s with
              blobs := (blobOid content, content) :: s.blobs,
              index := aupdate s.index p (blobOid content),
              trees := (s.next, aupdate s.index p (blobOid content)) :: s.trees,
              commits := (s.next + 1,
                { parents := [], tree := s.next, message := some m,
                  author := some "ReqTrace User", time := s.now }) :: s.commits,
              head := some (s.next + 1),
              next := s.next + 2 }) by
            simp [git_commit_file, hwd, stage, writeTree, mkCommit, alookup, hh]] at he
      exact absurd he (by simp)
    | some ho =>
      cases hpc : alookup s.commits ho with
      | none =>
        rw [show git_commit_file s p m =
             (.error "Failed to find parent commit",
              { s with
                blobs := (blobOid content, content) :: s.blobs,
                index := aupdate s.index p (blobOid content),
                trees := (s.next, aupdate s.index p (blobOid content)) :: s.trees,
                next := s.next + 1 }) by
              simp [git_commit_file, hwd, stage, writeTree, alookup, hh, hpc]]
        exact ⟨by simp [hh], by simp⟩
      | some pc =>
        rw [show git_commit_file s p m =
             (.ok (oidToString (s.next + 1)),
              { s with
                blobs := (blobOid content, content) :: s.blobs,
                index := aupdate s.index p (blobOid content),
                trees := (s.next, aupdate s.index p (blobOid content)) :: s.trees,
                commits := (s.next + 1,
                  { parents := [ho], tree := s.next, message := some m,
                    author := some "ReqTrace User", time := s.now }) :: s.commits,
                head := some (s.next + 1),
                next := s.next + 2 }) by
              simp [git_commit_file, hwd, stage, writeTree, mkCommit, alookup, hh, hpc]] at he
        exact absurd he (by simp)

/-! Claim theorems. -/

/-- Claim C2, counterexample: on the zero-commit repository `exS0`
(unborn head), `git_log` returns an error from `revwalk.push_head`
rather than the empty sequence the claim promises. -/
theorem C2_counterexample :
    git_log exS0 none = .error "Failed to push HEAD: reference not found" ∧
    (git_log exS0 none).isOk = false :=
  ⟨rfl, rfl⟩

/-- Claim C2 (amended): for every repository with an unborn head (zero
commits) and any path filter, `git_log` returns the push-head error
rather than an empty sequence. -/
theorem C2_empty_repo_errors (s : GitState) (fp : Option String) (h : s.head = none) :
    git_log s fp = .error "Failed to push HEAD: reference not found" := by
  simp [git_log, h]

/-- Claim C2, witness: the amended statement evaluated on the concrete
zero-commit repository. -/
theorem C2_empty_repo_errors_witness :
    exS0.head = none ∧
    git_log exS0 none = .error "Failed to push HEAD: reference not found" :=
  ⟨rfl, C2_empty_repo_errors exS0 none rfl⟩

/-- Claim C7, counterexample: on `exDangling` (head ref pointing at a
missing commit object) `git_commit` fails, yet the staged index and the
tree store have already been mutated, contradicting the claim that a
failing invocation changes no repository state (including staged index
state). -/
theorem C7_counterexample :
    (git_commit exDangling "m").1 = .error "Failed to find parent commit" ∧
    decide ((git_commit exDangling "m").2.index = exDangling.index) = false ∧
    decide ((git_commit exDangling "m").2.trees = exDangling.trees) = false :=
  ⟨rfl, rfl, rfl⟩

/-- Claim C7 (amended): when `git_commit` or `git_commit_file` fails,
the head ref and the commit store are left exactly as they were (the
ref update is atomic with commit creation), although the staged index
and the object store may already have been mutated by the staging and
tree-write steps. -/
theorem C7_no_partial_ref_update (s1 : GitState) (m1 : String)
    (s2 : GitState) (p m2 : String) (e1 e2 : String)
    (h1 : (git_commit s1 m1).1 = .error e1)
    (h2 : (git_commit_file s2 p m2).1 = .error e2) :
    ((git_commit s1 m1).2.head = s1.head ∧
     (git_commit s1 m1).2.commits = s1.commits) ∧
    ((git_commit_file s2 p m2).2.head = s2.head ∧
     (git_commit_file s2 p m2).2.commits = s2.commits) :=
  ⟨git_commit_err_pres s1 m1 e1 h1, git_commit_file_err_pres s2 p m2 e2 h2⟩

/-- Claim C7, witness: the amended statement evaluated on concrete
failing invocations of both commit entry points. -/
theorem C7_no_partial_ref_update_witness :
    ((git_commit exDangling "m").2.head = exDangling.head ∧
     (git_commit exDangling "m").2.commits = exDangling.commits) ∧
    ((git_commit_file exS0 "nope.md" "m").2.head = exS0.head ∧
     (git_commit_file exS0 "nope.md" "m").2.commits = exS0.commits) :=
  C7_no_partial_ref_update exDangling "m" exS0 "nope.md" "m"
    "Failed to find parent commit" "Failed to add file to index" rfl rfl

/-- Claim C8: every successful `git_commit` or `git_commit_file` makes
the previous head commit the sole parent of the new commit when a head
existed at invocation time, and a parentless root commit otherwise; the
new commit becomes the head. -/
theorem C8_parentage (s1 : GitState) (m1 h1 : String) (s1' : GitState)
    (s2 : GitState) (p m2 h2 : String) (s2' : GitState)
    (hc1 : git_commit s1 m1 = (.ok h1, s1'))
    (hc2 : git_commit_file s2 p m2 = (.ok h2, s2')) :
    (∃ n c, h1 = oidToString n ∧ s1'.head = some n ∧
       alookup s1'.commits n = some c ∧
       c.parents = (match s1.head with | some x => [x] | none => [])) ∧
    (∃ n c, h2 = oidToString n ∧ s2'.head = some n ∧
       alookup s2'.commits n = some c ∧
       c.parents = (match s2.head with | some x => [x] | none => [])) := by
  constructor
  · obtain ⟨hh, hhd, hcm⟩ := git_commit_ok s1 m1 h1 s1' hc1
    exact ⟨s1.next + 1, _, hh, hhd, by rw [hcm]; exact alookup_cons_self _ _ _, rfl⟩
  · obtain ⟨content, hw, hh, hs⟩ := git_commit_file_ok s2 p m2 h2 s2' hc2
    subst hs
    exact ⟨s2.next + 1, _, hh, rfl, alookup_cons_self _ _ _, rfl⟩

/-- Claim C8, witness: the parentage statement evaluated on a concrete
root commit (`git_commit_file` on the fresh repository) and a concrete
child commit (`git_commit` on the one-commit repository). -/
theorem C8_parentage_witness :
    (∃ n c, oidToString 3 = oidToString n ∧
       (git_commit exS1 "ca").2.head = some n ∧
       alookup (git_commit exS1 "ca").2.commits n = some c ∧
       c.parents = (match exS1.head with | some x => [x] | none => [])) ∧
    (∃ n c, oidToString 1 = oidToString n ∧
       (git_commit_file exS0 "requirements/r1.md" "add r1").2.head = some n ∧
       alookup (git_commit_file exS0 "requirements/r1.md" "add r1").2.commits n = some c ∧
       c.parents = (match exS0.head with | some x => [x] | none => [])) :=
  C8_parentage exS1 "ca" (oidToString 3) (git_commit exS1 "ca").2
    exS0 "requirements/r1.md" "add r1" (oidToString 1)
    (git_commit_file exS0 "requirements/r1.md" "add r1").2 rfl rfl

/-- Claim C9: every record returned by `git_log` is materialized from
some stored commit as: hash the string form of the commit's identifier,
message the empty string when the store has none, author the fixed
fallback label "Unknown" when the store has no author name, and
timestamp the commit's seconds value with no adjustment. -/
theorem C9_materialization (s : GitState) (fp : Option String) (out : List CommitInfo)
    (hlog : git_log s fp = .ok out) :
    ∀ info ∈ out, ∃ oid c, alookup s.commits oid = some c ∧
      info.hash = oidToString oid ∧
      info.message = c.message.getD "" ∧
      info.author = c.author.getD "Unknown" ∧
      info.timestamp = c.time := by
  cases hh : s.head with
  | none =>
    rw [show git_log s fp = .error "Failed to push HEAD: reference not found" by
          simp [git_log, hh]] at hlog
    exact absurd hlog (by simp)
  | some h0 =>
    rw [show git_log s fp = runWalk s fp (reachList s) by simp [git_log, hh]] at hlog
    intro info hi
    obtain ⟨oid, _, c, hc, heq⟩ := runWalk_shape s fp (reachList s) out hlog info hi
    subst heq
    exact ⟨oid, c, hc, rfl, rfl, rfl, rfl⟩

/-- Claim C9, witness: the materialization statement evaluated on the
concrete two-commit repository, at the head record of its history. -/
theorem C9_materialization_witness :
    ∃ oid c, alookup exS3.commits oid = some c ∧
      ({ hash := oidToString 3, message := "update r1",
         author := "ReqTrace User", timestamp := 100 } : CommitInfo).hash =
        oidToString oid ∧
      ({ hash := oidToString 3, message := "update r1",
         author := "ReqTrace User", timestamp := 100 } : CommitInfo).message =
        c.message.getD "" ∧
      ({ hash := oidToString 3, message := "update r1",
         author := "ReqTrace User", timestamp := 100 } : CommitInfo).author =
        c.author.getD "Unknown" ∧
      ({ hash := oidToString 3, message := "update r1",
         author := "ReqTrace User", timestamp := 100 } : CommitInfo).timestamp =
        c.time :=
  C9_materialization exS3 none
    [{ hash := oidToString 3, message := "update r1",
       author := "ReqTrace User", timestamp := 100 },
     { hash := oidToString 1, message := "add r1",
       author := "ReqTrace User", timestamp := 100 }] rfl
    { hash := oidToString 3, message := "update r1",
      author := "ReqTrace User", timestamp := 100 } (by simp)

/-- Claim C10: for a missing artifact directory `list_artifacts`
returns an empty list rather than an error, and every name it returns
is the file name of a directory entry whose extension is `md`. -/
theorem C10_list_artifacts (fs : List (String × List String)) (project atype : String) :
    (alookup fs (project ++ "/" ++ atype) = none →
      list_artifacts fs project atype = .ok []) ∧
    (∀ out, list_artifacts fs project atype = .ok out →
      ∀ name ∈ out, rustExtension name = some "md" ∧
        ∃ entries, alookup fs (project ++ "/" ++ atype) = some entries ∧
          name ∈ entries) := by
  constructor
  · intro hdir
    simp [list_artifacts, hdir]
  · intro out hout name hn
    cases hdir : alookup fs (project ++ "/" ++ atype) with
    | none =>
      rw [show list_artifacts fs project atype = .ok [] by
            simp [list_artifacts, hdir]] at hout
      have h0 : out = [] := by simpa using hout.symm
      subst h0
      simp at hn
    | some entries =>
      rw [show list_artifacts fs project atype =
           .ok (entries.filter fun nm => decide (rustExtension nm = some "md")) by
             simp [list_artifacts, hdir]] at hout
      have h0 : out = entries.filter fun nm => decide (rustExtension nm = some "md") := by
        simpa using hout.symm
      subst h0
      have hm := List.mem_filter.mp hn
      exact ⟨of_decide_eq_true hm.2, entries, rfl, hm.1⟩

/-- Claim C10, witness: the listing statement evaluated on a concrete
filesystem, covering both the missing directory and the extension
filter. -/
theorem C10_list_artifacts_witness :
    list_artifacts exFS "other" "requirements" = .ok [] ∧
    (rustExtension "a.md" = some "md" ∧
      ∃ entries, alookup exFS ("proj" ++ "/" ++ "requirements") = some entries ∧
        "a.md" ∈ entries) :=
  ⟨(C10_list_artifacts exFS "other" "requirements").1 rfl,
   (C10_list_artifacts exFS "proj" "requirements").2 ["a.md", "c.md"] rfl "a.md"
     (by simp)⟩

/-- Claim C6: writing content to a working-directory file, committing
that path with `git_commit_file`, and reading the path back with
`git_checkout_file` at the returned hash yields exactly the written
content (model blobs are text, matching the claim's restriction to
UTF-8 content). -/
theorem C6_write_commit_checkout (s : GitState) (p content m h : String) (s' : GitState)
    (hcf : git_commit_file (writeFile s p content) p m = (.ok h, s')) :
    git_checkout_file s' h p = .ok content := by
  obtain ⟨content', hw, hh, hs⟩ := git_commit_file_ok (writeFile s p content) p m h s' hcf
  have hcc : content' = content := by
    rw [show (writeFile s p content).workdir = aupdate s.workdir p content from rfl,
        alookup_aupdate_self] at hw
    exact (Option.some.inj hw).symm
  subst hcc
  subst hs
  subst hh
  simp [git_checkout_file, oid_roundtrip, alookup, alookup_aupdate_self]

/-- Claim C6, witness: the round trip evaluated on the concrete
one-commit repository with new content "B". -/
theorem C6_write_commit_checkout_witness :
    git_checkout_file
      (git_commit_file (writeFile exS1 "requirements/r1.md" "B")
        "requirements/r1.md" "update r1").2
      (oidToString 3) "requirements/r1.md" = .ok "B" :=
  C6_write_commit_checkout exS1 "requirements/r1.md" "B" "update r1" (oidToString 3)
    (git_commit_file (writeFile exS1 "requirements/r1.md" "B")
      "requirements/r1.md" "update r1").2 rfl

/-- Claim C1: with a path filter, `git_log` includes a visited commit
exactly when the spec predicate holds: a root commit iff the path is
present in its tree; a commit with parents iff for at least one parent
the path's presence differs between the two trees, or both trees hold
the path with different entry ids (a parent whose commit or tree does
not resolve witnesses no difference); all other visited commits are
omitted. -/
theorem C1_filter_inclusion (s : GitState) (P : String) (oid : Nat) (c : Commit)
    (ctree : GTree) (out : List CommitInfo)
    (hlog : git_log s (some P) = .ok out)
    (hvis : oid ∈ reachList s)
    (hc : alookup s.commits oid = some c)
    (ht : alookup s.trees c.tree = some ctree) :
    ((∃ info ∈ out, info.hash = oidToString oid) ↔ specIncludes s P c ctree) := by
  cases hh : s.head with
  | none =>
    rw [show git_log s (some P) = .error "Failed to push HEAD: reference not found" by
          simp [git_log, hh]] at hlog
    exact absurd hlog (by simp)
  | some h0 =>
    rw [show git_log s (some P) = runWalk s (some P) (reachList s) by
          simp [git_log, hh]] at hlog
    rw [runWalk_mem_iff s P oid c ctree hc ht (reachList s) out
      (reachList_nodup s) hvis hlog]
    unfold specIncludes
    by_cases hroot : c.parents = []
    · rw [if_pos hroot, hroot]
      simp [specPresent]
    · rw [if_neg hroot]
      rw [show c.parents.isEmpty = false by
            cases hcp : c.parents with
            | nil => exact absurd hcp hroot
            | cons a t => rfl]
      simpa using parentLoop_iff_spec s P ctree c.parents

/-- Claim C1, witness: the inclusion criterion evaluated for the head
commit of the concrete two-commit repository (content changed relative
to the sole parent, so the commit is included). -/
theorem C1_filter_inclusion_witness :
    (∃ info ∈ [({ hash := oidToString 3, message := "update r1",
                  author := "ReqTrace User", timestamp := 100 } : CommitInfo),
               { hash := oidToString 1, message := "add r1",
                 author := "ReqTrace User", timestamp := 100 }],
       info.hash = oidToString 3) ↔
      specIncludes exS3 "requirements/r1.md"
        { parents := [1], tree := 2, message := some "update r1",
          author := some "ReqTrace User", time := 100 }
        [("requirements/r1.md", blobOid "B")] :=
  C1_filter_inclusion exS3 "requirements/r1.md" 3
    { parents := [1], tree := 2, message := some "update r1",
      author := some "ReqTrace User", time := 100 }
    [("requirements/r1.md", blobOid "B")] _ rfl (by decide) rfl rfl

/-- Claim C4: without a path filter, a successful `git_log` on a
repository with a head returns one record per walked commit — the walk
enumerating the commits reachable from head, head first — in walk
order with no re-sorting: the output is the walk mapped through
`recordOf`, its length equals the walk's, and the i-th record is the
materialization of the i-th walked commit. -/
theorem C4_nofilter_all_reachable (s : GitState) (h0 : Nat) (out : List CommitInfo)
    (hh : s.head = some h0)
    (hres : ∀ oid ∈ reachList s, (alookup s.commits oid).isSome = true)
    (hlog : git_log s none = .ok out) :
    out = (reachList s).filterMap (recordOf s) ∧
    out.length = (reachList s).length ∧
    ∀ i : Nat, out[i]? = ((reachList s)[i]?).bind (recordOf s) := by
  rw [show git_log s none = runWalk s none (reachList s) by simp [git_log, hh]] at hlog
  rw [runWalk_nofilter s (reachList s) hres] at hlog
  have hout : out = (reachList s).filterMap (recordOf s) := by simpa using hlog.symm
  subst hout
  have hsome : ∀ oid ∈ reachList s, (recordOf s oid).isSome = true := by
    intro oid ho
    obtain ⟨c, hc⟩ := Option.isSome_iff_exists.mp (hres oid ho)
    simp [recordOf, hc]
  exact ⟨rfl, filterMap_all_some_len (recordOf s) (reachList s) hsome,
    filterMap_all_some_get (recordOf s) (reachList s) hsome⟩

/-- Claim C4, witness: the no-filter contract evaluated on the
concrete two-commit repository. -/
theorem C4_nofilter_all_reachable_witness :
    ([({ hash := oidToString 3, message := "update r1",
         author := "ReqTrace User", timestamp := 100 } : CommitInfo),
      { hash := oidToString 1, message := "add r1",
        author := "ReqTrace User", timestamp := 100 }] =
      (reachList exS3).filterMap (recordOf exS3)) ∧
    ([({ hash := oidToString 3, message := "update r1",
         author := "ReqTrace User", timestamp := 100 } : CommitInfo),
      { hash := oidToString 1, message := "add r1",
        author := "ReqTrace User", timestamp := 100 }].length =
      (reachList exS3).length) ∧
    ∀ i : Nat,
      ([({ hash := oidToString 3, message := "update r1",
           author := "ReqTrace User", timestamp := 100 } : CommitInfo),
        { hash := oidToString 1, message := "add r1",
          author := "ReqTrace User", timestamp := 100 }])[i]? =
        ((reachList exS3)[i]?).bind (recordOf exS3) :=
  C4_nofilter_all_reachable exS3 3 _ rfl (by decide) rfl

/-- Claim C3, counterexample: in `exBad` the head commit has the path
present and its only parent's commit object is missing from the store;
the claim predicts the parent degrades to "absent", the head commit is
included and the call succeeds, but the call fails outright when the
walk reaches the missing parent. -/
theorem C3_counterexample :
    git_log exBad (some "f.md") = .error "Failed to find commit" ∧
    (git_log exBad (some "f.md")).isOk = false :=
  ⟨rfl, rfl⟩

/-- Claim C3 (amended): a parent whose commit or tree fails to resolve
is skipped by the comparison loop — contributing no difference, so it
can neither include nor fail that commit — and the loop continues with
the remaining parents; the call errors only when a visited commit
itself, or under a filter its tree, cannot be resolved (and a walk all
of whose commits and trees resolve always succeeds).  Since every
parent is itself visited, a missing parent object still fails the
whole call when the walk reaches it. -/
theorem C3_parent_skip (s : GitState) :
    (∀ (ctree : GTree) (P : String) (fic : Bool) (poid : Nat) (rest : List Nat),
       alookup s.commits poid = none →
       parentLoop s ctree P fic (poid :: rest) = parentLoop s ctree P fic rest) ∧
    (∀ (ctree : GTree) (P : String) (fic : Bool) (poid : Nat) (pc : Commit)
       (rest : List Nat),
       alookup s.commits poid = some pc → alookup s.trees pc.tree = none →
       parentLoop s ctree P fic (poid :: rest) = parentLoop s ctree P fic rest) ∧
    (∀ (fp : Option String) (oid : Nat) (c : Commit),
       alookup s.commits oid = some c → (alookup s.trees c.tree).isSome = true →
       ∃ r, logStep s fp oid = .ok r) ∧
    (∀ (fp : Option String) (walk : List Nat),
       (∀ oid ∈ walk, ∃ c, alookup s.commits oid = some c ∧
         (alookup s.trees c.tree).isSome = true) →
       ∃ out, runWalk s fp walk = .ok out) := by
  refine ⟨?_, ?_, ?_, ?_⟩
  · intro ctree P fic poid rest hpc
    simp [parentLoop, hpc]
  · intro ctree P fic poid pc rest hpc hpt
    simp [parentLoop, hpc, hpt]
  · intro fp oid c hc ht
    obtain ⟨ctree, htc⟩ := Option.isSome_iff_exists.mp ht
    cases fp with
    | none => exact ⟨_, logStep_nofilter s oid c hc⟩
    | some path => exact ⟨_, logStep_filter s path oid c ctree hc htc⟩
  · intro fp walk hres
    exact runWalk_total s fp walk hres

/-- Claim C3, witness: the amended statement instantiated on `exBad`:
the missing parent 0 is skipped by the comparison loop at the head
commit, and a walk consisting of resolvable commits completes. -/
theorem C3_parent_skip_witness :
    parentLoop exBad [("f.md", 7)] "f.md" true [0] =
      parentLoop exBad [("f.md", 7)] "f.md" true [] ∧
    ∃ out, runWalk exBad (some "f.md") [1] = .ok out :=
  ⟨(C3_parent_skip exBad).1 [("f.md", 7)] "f.md" true 0 [] rfl,
   (C3_parent_skip exBad).2.2.2 (some "f.md") [1] (by
     intro oid ho
     rw [List.mem_singleton] at ho
     subst ho
     exact ⟨{ parents := [0], tree := 10, message := some "m",
              author := some "a", time := 0 }, rfl, rfl⟩)⟩

theorem alookup_cons_ne {α β : Type} [DecidableEq α] (k k' : α) (v : β) (t : List (α × β))
    (h : k ≠ k') : alookup ((k, v) :: t) k' = alookup t k' := by
  simp [alookup, h]

theorem runWalk_first_included (s2 : GitState) (coid : Nat) (crec : Commit) (idx : GTree)
    (path : String) (t : List Nat) (out : List CommitInfo)
    (hc : alookup s2.commits coid = some crec)
    (ht : alookup s2.trees crec.tree = some idx)
    (hch : (if crec.parents.isEmpty then (alookup idx path).isSome
            else parentLoop s2 idx path (alookup idx path).isSome crec.parents) = true)
    (hrun : runWalk s2 (some path) (coid :: t) = .ok out) :
    ∃ rest, out = mkInfo coid crec :: rest := by
  rw [runWalk_cons, logStep_filter s2 path coid crec idx hc ht, if_pos hch] at hrun
  cases hrest : runWalk s2 (some path) t with
  | error e => rw [hrest] at hrun; exact absurd hrun (by simp)
  | ok out' =>
    rw [hrest] at hrun
    exact ⟨out', by simpa using hrun.symm⟩

/-- Claim C5, counterexample: committing `requirements/r1.md` a second
time with unchanged content succeeds and returns the new commit's hash,
but the filtered history excludes the new commit (same entry id as its
parent), so the first element of the history is the older commit's
hash, not the returned one. -/
theorem C5_counterexample :
    git_commit_file exS1 "requirements/r1.md" "again" = (.ok (oidToString 3), exS4) ∧
    git_log exS4 (some "requirements/r1.md") =
      .ok [{ hash := oidToString 1, message := "add r1",
             author := "ReqTrace User", timestamp := 100 }] ∧
    decide (oidToString 1 = oidToString 3) = false :=
  ⟨rfl, rfl, rfl⟩

/-- Claim C5 (amended): if `git_commit_file` succeeds with hash `h` and
the staged content actually differs from the path's entry in the head
commit's tree (or the path is absent there, or there is no head), then
an immediately following `git_log` filtered to the same path returns a
non-empty sequence whose first element's hash is `h`.  Without the
difference condition the claim fails: a commit of unchanged content is
filtered out of its own path history. -/
theorem C5_commit_then_history (s : GitState) (path m h content : String) (s' : GitState)
    (out : List CommitInfo)
    (hwf : WF s)
    (hw : alookup s.workdir path = some content)
    (hdiff : ∀ ho, s.head = some ho → ∃ pc ptree,
      alookup s.commits ho = some pc ∧ alookup s.trees pc.tree = some ptree ∧
      alookup ptree path ≠ some (blobOid content))
    (hcf : git_commit_file s path m = (.ok h, s'))
    (hlog : git_log s' (some path) = .ok out) :
    ∃ info rest, out = info :: rest ∧ info.hash = h := by
  obtain ⟨content2, hw2, hh, hs⟩ := git_commit_file_ok s path m h s' hcf
  rw [hw] at hw2
  have hc2 : content = content2 := Option.some.inj hw2
  subst hc2
  subst hh
  have hhead2 : s'.head = some (s.next + 1) := by rw [hs]
  obtain ⟨t, hrl⟩ := reachList_head s' (s.next + 1) hhead2
  rw [show git_log s' (some path) = runWalk s' (some path) (reachList s') by
        simp [git_log, hhead2], hrl] at hlog
  have hc' : alookup s'.commits (s.next + 1) = some
      { parents := (match s.head with | some x => [x] | none => []),
        tree := s.next, message := some m,
        author := some "ReqTrace User", time := s.now } := by
    rw [hs]
    exact alookup_cons_self _ _ _
  have ht' : alookup s'.trees s.next = some (aupdate s.index path (blobOid content)) := by
    rw [hs]
    exact alookup_cons_self _ _ _
  have hch : (if ({ parents := (match s.head with | some x => [x] | none => []),
                    tree := s.next, message := some m,
                    author := some "ReqTrace User", time := s.now } : Commit).parents.isEmpty
              then (alookup (aupdate s.index path (blobOid content)) path).isSome
              else parentLoop s' (aupdate s.index path (blobOid content)) path
                (alookup (aupdate s.index path (blobOid content)) path).isSome
                ({ parents := (match s.head with | some x => [x] | none => []),
                   tree := s.next, message := some m,
                   author := some "ReqTrace User", time := s.now } : Commit).parents) =
              true := by
    cases hsh : s.head with
    | none => simp [alookup_aupdate_self]
    | some ho =>
      obtain ⟨pc, ptree, hpc, hpt, hne⟩ := hdiff ho hsh
      have hho : ho < s.next := hwf.1 ho (alookup_some_mem s.commits ho pc hpc)
      have hptk : pc.tree < s.next :=
        hwf.2 pc.tree (alookup_some_mem s.trees pc.tree ptree hpt)
      have hpc2 : alookup s'.commits ho = some pc := by
        rw [hs, alookup_cons_ne _ _ _ _ (by omega : s.next + 1 ≠ ho)]
        exact hpc
      have hpt2 : alookup s'.trees pc.tree = some ptree := by
        rw [hs, alookup_cons_ne _ _ _ _ (by omega : s.next ≠ pc.tree)]
        exact hpt
      cases hfip : (alookup ptree path).isSome with
      | false =>
        simp [parentLoop, hpc2, hpt2, hfip, alookup_aupdate_self]
      | true =>
        obtain ⟨e, he⟩ := Option.isSome_iff_exists.mp hfip
        have hne2 : blobOid content ≠ e := by
          intro hq
          exact hne (by rw [he, ← hq])
        simp [parentLoop, hpc2, hpt2, hfip, he, alookup_aupdate_self, hne2]
  obtain ⟨rest, hout⟩ := runWalk_first_included s' (s.next + 1) _
    (aupdate s.index path (blobOid content)) path t out hc' ht' hch hlog
  exact ⟨_, rest, hout, rfl⟩

/-- Claim C5, witness: the amended round trip evaluated on the concrete
repository where the committed content "B" differs from the head tree's
entry for the path. -/
theorem C5_commit_then_history_witness :
    ∃ info rest,
      ([({ hash := oidToString 3, message := "update r1",
           author := "ReqTrace User", timestamp := 100 } : CommitInfo),
        { hash := oidToString 1, message := "add r1",
          author := "ReqTrace User", timestamp := 100 }] : List CommitInfo) =
        info :: rest ∧
      info.hash = oidToString 3 :=
  C5_commit_then_history exS2 "requirements/r1.md" "update r1" (oidToString 3) "B"
    exS3 _ ⟨by decide, by decide⟩ rfl
    (by
      intro ho hho
      have hs1 : some 1 = some ho := hho
      obtain rfl : (1 : Nat) = ho := Option.some.inj hs1
      refine ⟨{ parents := [], tree := 0, message := some "add r1",
                author := some "ReqTrace User", time := 100 },
              [("requirements/r1.md", blobOid "A")], rfl, rfl, ?_⟩
      intro hcontra
      have hab : blobOid "A" = blobOid "B" := Option.some.inj hcontra
      exact absurd hab (by decide))
    rfl rfl
